import Mathlib

/-!
# Verification of the pdfTool page-spec parser and merge assembler

Shallow embedding of `src/pdftool.py`'s core logic:

* `parse_one_pagespec` / `parse_pagespec` (lines 80–133): the textual
  page-specification parser;
* the merge loop under the `Merge PDFs` button (lines 461–510): file
  ordering, bookmark placement and page emission;
* the export rendering `",".join(map(str, pages))` (line 517).

Python strings are embedded as `List Char` (ASCII fragment: `str.strip`,
`str.lower`, `int(...)` and `str.isspace` are modelled for the ASCII
characters that the page-spec syntax uses).  Python exceptions become
`Except String`.  Python `int` values become `Int`.
-/

namespace PdfTool

/-! ## Python string primitives -/

/-- Python `str.strip()`: drop whitespace from both ends (ASCII whitespace model). -/
def pyStrip (cs : List Char) : List Char :=
  ((cs.dropWhile Char.isWhitespace).reverse.dropWhile Char.isWhitespace).reverse

/-- Python `str.lower()`, modelled per character (exact on ASCII). -/
def pyLower (cs : List Char) : List Char :=
  cs.map Char.toLower

/-- One decimal digit character, `decDigit d = chr(48 + d)` for `d < 10`. -/
def decDigit (d : Nat) : Char := Char.ofNat (48 + d)

/-- Is `c` an ASCII decimal digit? -/
def isDigitC (c : Char) : Bool := 48 ≤ c.toNat && c.toNat ≤ 57

/-- Decimal value of a digit list (most significant first). -/
def decVal (cs : List Char) : Nat :=
  cs.foldl (fun a c => 10 * a + (c.toNat - 48)) 0

/-- Digit-group shape of a Python `int` literal after the optional sign:
after an underscore the next character must be a digit. -/
def groupedTail : List Char → Bool
  | [] => true
  | c :: rest =>
    if c = '_' then
      match rest with
      | [] => false
      | d :: _ => isDigitC d && groupedTail rest
    else isDigitC c && groupedTail rest

/-- Body of a Python `int` literal after the optional sign: nonempty,
digits with single underscores strictly between digits. -/
def groupedDigits : List Char → Bool
  | [] => false
  | c :: rest => isDigitC c && groupedTail rest

/-- Remove the underscore digit separators. -/
def dropUnders (cs : List Char) : List Char :=
  cs.filter (fun c => c != '_')

/-- Python `int(s)` after stripping: optional single sign, then grouped digits. -/
def pyIntCore (cs : List Char) : Option Int :=
  match cs with
  | [] => none
  | c :: rest =>
    if c = '+' then
      if groupedDigits rest then some ((decVal (dropUnders rest) : Int)) else none
    else if c = '-' then
      if groupedDigits rest then some (-(decVal (dropUnders rest) : Int)) else none
    else
      if groupedDigits cs then some ((decVal (dropUnders cs) : Int)) else none

/-- Python `int(s)` on a string: `None` models a raised `ValueError`. -/
def pyInt (cs : List Char) : Option Int := pyIntCore (pyStrip cs)

/-- Decimal digits of `n`, most significant first; `fuel` bounds the
recursion (any `fuel > n` is enough). -/
def decDigitsF (fuel n : Nat) : List Char :=
  match fuel with
  | 0 => []
  | f + 1 => if n < 10 then [decDigit n] else decDigitsF f (n / 10) ++ [decDigit (n % 10)]

/-- Python `str(n)` for a natural number: decimal digits. -/
def natToDecL (n : Nat) : List Char := decDigitsF (n + 1) n

/-- Python `str(p)` for an integer. -/
def pyStrL (p : Int) : List Char :=
  if p < 0 then '-' :: natToDecL p.natAbs else natToDecL p.toNat

/-- Python `spec.split(",")`: split on every comma, keeping empty segments. -/
def splitOnComma : List Char → List (List Char)
  | [] => [[]]
  | c :: rest =>
    if c = ',' then [] :: splitOnComma rest
    else
      match splitOnComma rest with
      | [] => [[c]]
      | p :: ps => (c :: p) :: ps

/-- Python `",".join(parts)`. -/
def joinComma : List (List Char) → List Char
  | [] => []
  | [p] => p
  | p :: ps => p ++ ',' :: joinComma ps

/-! ## The page-spec parser (`parse_one_pagespec`, `parse_pagespec`) -/

/-- Python `list(range(a, b + 1))`: the integers `a, a+1, ..., b` (empty if `b < a`). -/
def intRange (a b : Int) : List Int :=
  (List.range (b + 1 - a).toNat).map (fun (i : Nat) => a + (i : Int))

/-- Python `t.count("-")`. -/
def dashCount (cs : List Char) : Nat :=
  (cs.filter (fun c => c == '-')).length

/-- Python `t.split("-", 1)` in the branch where `t` contains a `-`:
the part before the first dash and the part after it. -/
def splitFirstDash (cs : List Char) : List Char × List Char :=
  (cs.takeWhile (fun c => c != '-'), (cs.dropWhile (fun c => c != '-')).tail)

/-- The source's `parse_one_pagespec(token, max_pages)` (src/pdftool.py lines 80–115).
`Except.error` models a raised `ValueError`. -/
def parse_one_token (token : List Char) (maxPages : Nat) : Except String (List Int) :=
  let t := pyLower (pyStrip token)
  if t.isEmpty then .ok []
  else if t = "all".data then .ok (intRange 1 (maxPages : Int))
  else if t.contains '-' then
    if 1 < dashCount t then .error "Invalid range"
    else
      let se := splitFirstDash t
      if se.1.isEmpty && se.2.isEmpty then .error "Invalid open range"
      else if se.1.isEmpty then
        match pyInt se.2 with
        | none => .error "invalid literal for int"
        | some e =>
          if e < 1 then .error "Invalid end in range"
          else .ok (intRange 1 (min e (maxPages : Int)))
      else if se.2.isEmpty then
        match pyInt se.1 with
        | none => .error "invalid literal for int"
        | some s =>
          if s < 1 then .error "Invalid start in range"
          else .ok (intRange (min s (maxPages : Int)) (maxPages : Int))
      else
        match pyInt se.1 with
        | none => .error "invalid literal for int"
        | some s =>
          match pyInt se.2 with
          | none => .error "invalid literal for int"
          | some e =>
            if s < 1 || e < 1 || e < s then .error "Invalid range"
            else .ok (intRange (min s (maxPages : Int)) (min e (maxPages : Int)))
  else
    match pyInt t with
    | none => .error "invalid literal for int"
    | some n =>
      if n < 1 then .error "Invalid page number"
      else .ok [min n (maxPages : Int)]

/-- The `for part in parts: pages.extend(parse_one_pagespec(part, max_pages))`
loop: per-token results in order, the first failure aborting everything. -/
def parseAll (tokens : List (List Char)) (maxPages : Nat) :
    Except String (List (List Int)) :=
  match tokens with
  | [] => .ok []
  | t :: ts =>
    match parse_one_token t maxPages with
    | .error e => .error e
    | .ok l =>
      match parseAll ts maxPages with
      | .error e => .error e
      | .ok ls => .ok (l :: ls)

/-- The `seen`/`uniq` loop of `parse_pagespec`: keep the first occurrence of
each value, drop later repeats. -/
def dedupAux (seen : List Int) : List Int → List Int
  | [] => []
  | p :: ps => if p ∈ seen then dedupAux seen ps else p :: dedupAux (p :: seen) ps

/-- Deduplicate preserving first-occurrence order. -/
def dedupFirst (l : List Int) : List Int := dedupAux [] l

/-- The source's `parse_pagespec` applied to an already-split token list. -/
def parse_pagespec_core (tokens : List (List Char)) (maxPages : Nat) :
    Except String (List Int) :=
  match parseAll tokens maxPages with
  | .error e => .error e
  | .ok ls => .ok (dedupFirst ls.flatten)

/-- The comprehension `[p for p in spec.split(",") if p.strip()]`. -/
def specParts (cs : List Char) : List (List Char) :=
  (splitOnComma cs).filter (fun p => !(pyStrip p).isEmpty)

/-- The source's `parse_pagespec(spec, max_pages)` for a string spec (lines 118–133). -/
def parse_pagespec (spec : String) (maxPages : Nat) : Except String (List Int) :=
  parse_pagespec_core (specParts spec.data) maxPages

/-- The source's `parse_pagespec(spec, max_pages)` for a list-of-tokens spec
(`parts = list(spec)`: no empty-segment filtering on this path). -/
def parse_pagespec_tokenList (tokens : List String) (maxPages : Nat) :
    Except String (List Int) :=
  parse_pagespec_core (tokens.map String.data) maxPages

/-- The export rendering `",".join(map(str, pages))` (line 517, the export serialization). -/
def renderPages (pages : List Int) : String :=
  String.mk (joinComma (pages.map pyStrL))

/-! ## The merge loop (lines 461–510) -/

/-- Python `Path(name).name`: the basename, i.e. the part after the last `/`
(model for POSIX-style identifiers without trailing separators). -/
def basename (s : String) : String :=
  String.mk ((s.data.reverse.takeWhile (fun c => c != '/')).reverse)

/-- The sort key of the alphabetical file order:
`Path(t[0]).name.lower()` (line 463). -/
def mergeKey (name : String) : String :=
  String.mk (pyLower (basename name).data)

/-- A loaded source file as the merge loop sees it: its identifier, whether
`try_open_reader`/decryption succeeded, and its page count. -/
structure SourceEntry where
  name : String
  readable : Bool
  pageCount : Nat
deriving DecidableEq, Repr

/-- The merge plan accumulated by the loop: the pages written so far as
`(sourceId, 0-based page index)` and the bookmarks as `(label, output position)`. -/
structure MergePlan where
  steps : List (String × Int)
  bookmarks : List (String × Nat)
deriving DecidableEq, Repr

/-- The inner `for p1 in wanted` loop: emit `(name, p1 - 1)` for each selected
page whose 0-based index is within `[0, pageCount)`, silently skipping the rest. -/
def entrySteps (e : SourceEntry) (wanted : List Int) : List (String × Int) :=
  wanted.filterMap (fun p1 =>
    let idx0 := p1 - 1
    if 0 ≤ idx0 ∧ idx0 < (e.pageCount : Int) then some (e.name, idx0) else none)

/-- The lookup `selections.get(name, list(range(1, maxp + 1)))` (line 491). -/
def wantedOf (sel : String → Option (List Int)) (e : SourceEntry) : List Int :=
  (sel e.name).getD (intRange 1 (e.pageCount : Int))

/-- One iteration of the `for name, data in file_entries` merge loop. -/
def mergeStep (sel : String → Option (List Int)) (addBookmarks : Bool)
    (plan : MergePlan) (e : SourceEntry) : MergePlan :=
  if !e.readable then plan
  else if e.pageCount < 1 then plan
  else
    let wanted := wantedOf sel e
    let plan' :=
      if addBookmarks && !wanted.isEmpty then
        { plan with bookmarks := plan.bookmarks ++ [(basename e.name, plan.steps.length)] }
      else plan
    { plan' with steps := plan'.steps ++ entrySteps e wanted }

/-- The whole merge loop over `file_entries`. -/
def buildMergePlan (entries : List SourceEntry) (sel : String → Option (List Int))
    (addBookmarks : Bool) : MergePlan :=
  entries.foldl (mergeStep sel addBookmarks) ⟨[], []⟩

/-- Stable insertion of `x` into `l`: `x` goes before the first element whose
key is not smaller (so an earlier-listed element wins ties). -/
def insortEntry {α : Type} (key : α → String) (x : α) : List α → List α
  | [] => [x]
  | b :: l => if key x ≤ key b then x :: b :: l else b :: insortEntry key x l

/-- Stable sort by key: the stable-sort model of Python's
`sorted(file_entries, key=lambda t: Path(t[0]).name.lower())` (line 463);
Python's sort is stable, and the stable sort by a key is unique. -/
def sortEntries {α : Type} (key : α → String) : List α → List α
  | [] => []
  | x :: xs => insortEntry key x (sortEntries key xs)

/-- Lines 462–463: reorder the entries only under the alphabetical policy. -/
def orderEntries (alphabetical : Bool) (entries : List SourceEntry) : List SourceEntry :=
  if alphabetical then sortEntries (fun e => mergeKey e.name) entries else entries

/-- The expected bookmark sequence of §4.2: one bookmark per entry in order,
labeled with the basename, positioned at the running count of selected pages
of the earlier entries. -/
def expectedBookmarks (sel : String → Option (List Int)) :
    List SourceEntry → Nat → List (String × Nat)
  | [], _ => []
  | e :: es, pos =>
    (basename e.name, pos) :: expectedBookmarks sel es (pos + (wantedOf sel e).length)

/-- Did this parse raise? -/
def isErrB {α : Type} : Except String α → Bool
  | .error _ => true
  | .ok _ => false

/-- An endpoint that the spec calls invalid: non-numeric, or below 1. -/
def endpointBad (piece : List Char) : Bool :=
  match pyInt piece with
  | none => true
  | some v => v < 1

/-- Modelled from the spec (claim C2's wording): a comma-separated token is
structurally malformed when it has more than one `-`, is a bare `-` with
both sides empty, has a non-numeric endpoint or an endpoint below 1, or is
a closed range whose unclamped endpoints satisfy `A > B`.  Empty tokens and
`all` are well formed. -/
def tokenMalformed (token : List Char) : Bool :=
  let t := pyLower (pyStrip token)
  if t.isEmpty then false
  else if t = "all".data then false
  else if t.contains '-' then
    if 1 < dashCount t then true
    else
      let se := splitFirstDash t
      if se.1.isEmpty && se.2.isEmpty then true
      else if se.1.isEmpty then endpointBad se.2
      else if se.2.isEmpty then endpointBad se.1
      else
        endpointBad se.1 || endpointBad se.2 ||
          (match pyInt se.1, pyInt se.2 with
           | some a, some b => b < a
           | _, _ => false)
  else endpointBad t

/-- A merge entry whose selection is present, non-empty, and in range — the
situation claim C5 describes. -/
def goodEntry (sel : String → Option (List Int)) (e : SourceEntry) : Prop :=
  e.readable = true ∧ 1 ≤ e.pageCount ∧ sel e.name ≠ none ∧
    (sel e.name).getD [] ≠ [] ∧
    ∀ p ∈ (sel e.name).getD [], 1 ≤ p ∧ p ≤ (e.pageCount : Int)

instance (sel : String → Option (List Int)) (e : SourceEntry) :
    Decidable (goodEntry sel e) := by
  unfold goodEntry
  infer_instance

/-! ## Lemmas: decimal digits and the `int()` model -/

theorem decDigit_facts : ∀ d, d < 10 →
    (decDigit d).toNat = 48 + d ∧ isDigitC (decDigit d) = true ∧
    (decDigit d).isWhitespace = false ∧ (decDigit d).toLower = decDigit d ∧
    decDigit d ≠ '+' ∧ decDigit d ≠ '-' ∧ decDigit d ≠ ',' ∧
    decDigit d ≠ '_' ∧ decDigit d ≠ 'a' := by
  decide

theorem decVal_append_digit (xs : List Char) (c : Char) :
    decVal (xs ++ [c]) = 10 * decVal xs + (c.toNat - 48) := by
  simp [decVal, List.foldl_append]

theorem decDigitsF_spec : ∀ fuel n, n < fuel →
    (∀ c ∈ decDigitsF fuel n, ∃ d, d < 10 ∧ c = decDigit d) ∧
    decDigitsF fuel n ≠ [] ∧ decVal (decDigitsF fuel n) = n := by
  intro fuel
  induction fuel with
  | zero => intro n hn; omega
  | succ f ih =>
    intro n hn
    by_cases h10 : n < 10
    · refine ⟨?_, ?_, ?_⟩ <;> simp [decDigitsF, h10, decVal]
      · exact ⟨n, h10, rfl⟩
      · have := (decDigit_facts n h10).1
        omega
    · have hdiv : n / 10 < f := by omega
      obtain ⟨hmem, hne, hval⟩ := ih (n / 10) hdiv
      refine ⟨?_, ?_, ?_⟩ <;> simp [decDigitsF, h10]
      · intro c hc
        rcases hc with hc | hc
        · exact hmem c hc
        · exact ⟨n % 10, by omega, hc⟩
      · rw [decVal_append_digit, hval, (decDigit_facts (n % 10) (by omega)).1]
        omega

theorem natToDecL_digits (n : Nat) :
    ∀ c ∈ natToDecL n, ∃ d, d < 10 ∧ c = decDigit d :=
  (decDigitsF_spec (n + 1) n (by omega)).1

theorem natToDecL_ne_nil (n : Nat) : natToDecL n ≠ [] :=
  (decDigitsF_spec (n + 1) n (by omega)).2.1

theorem decVal_natToDecL (n : Nat) : decVal (natToDecL n) = n :=
  (decDigitsF_spec (n + 1) n (by omega)).2.2

theorem natToDecL_char_facts (n : Nat) :
    ∀ c ∈ natToDecL n, isDigitC c = true ∧ c.isWhitespace = false ∧
      c.toLower = c ∧ c ≠ '+' ∧ c ≠ '-' ∧ c ≠ ',' ∧ c ≠ '_' ∧ c ≠ 'a' := by
  intro c hc
  obtain ⟨d, hd, rfl⟩ := natToDecL_digits n c hc
  obtain ⟨_, h2, h3, h4, h5, h6, h7, h8, h9⟩ := decDigit_facts d hd
  exact ⟨h2, h3, h4, h5, h6, h7, h8, h9⟩

theorem dropWhile_eq_self_of (p : Char → Bool) (cs : List Char)
    (h : ∀ c ∈ cs, p c = false) : cs.dropWhile p = cs := by
  cases cs with
  | nil => rfl
  | cons c rest => simp [List.dropWhile, h c (by simp)]

theorem pyStrip_eq_self (cs : List Char) (h : ∀ c ∈ cs, c.isWhitespace = false) :
    pyStrip cs = cs := by
  unfold pyStrip
  rw [dropWhile_eq_self_of _ cs h, dropWhile_eq_self_of _ cs.reverse
    (fun c hc => h c (List.mem_reverse.mp hc)), List.reverse_reverse]

theorem pyLower_eq_self (cs : List Char) (h : ∀ c ∈ cs, c.toLower = c) :
    pyLower cs = cs := by
  unfold pyLower
  induction cs with
  | nil => rfl
  | cons c rest ih =>
    simp only [List.map_cons, h c (by simp)]
    rw [ih (fun x hx => h x (by simp [hx]))]

theorem isDigitC_ne_special {c : Char} (h : isDigitC c = true) :
    c ≠ '_' ∧ c ≠ '+' ∧ c ≠ '-' := by
  refine ⟨?_, ?_, ?_⟩ <;> rintro rfl <;> simp [isDigitC] at h

theorem groupedTail_of_digits (cs : List Char)
    (h : ∀ c ∈ cs, isDigitC c = true) : groupedTail cs = true := by
  induction cs with
  | nil => rfl
  | cons c rest ih =>
    have hc := h c (by simp)
    simp [groupedTail, (isDigitC_ne_special hc).1, hc,
      ih (fun x hx => h x (by simp [hx]))]

theorem groupedDigits_of_digits (cs : List Char)
    (h : ∀ c ∈ cs, isDigitC c = true) (hne : cs ≠ []) : groupedDigits cs = true := by
  cases cs with
  | nil => exact absurd rfl hne
  | cons c rest =>
    simp [groupedDigits, h c (by simp),
      groupedTail_of_digits rest (fun x hx => h x (by simp [hx]))]

theorem dropUnders_eq_self (cs : List Char) (h : ∀ c ∈ cs, c ≠ '_') :
    dropUnders cs = cs := by
  unfold dropUnders
  rw [List.filter_eq_self]
  intro a ha
  simpa using h a ha

theorem pyIntCore_digits (cs : List Char)
    (h : ∀ c ∈ cs, isDigitC c = true) (hne : cs ≠ []) :
    pyIntCore cs = some ((decVal cs : Int)) := by
  cases cs with
  | nil => exact absurd rfl hne
  | cons c rest =>
    have hc := h c (by simp)
    have hplus : ¬c = '+' := (isDigitC_ne_special hc).2.1
    have hminus : ¬c = '-' := (isDigitC_ne_special hc).2.2
    simp only [pyIntCore, if_neg hplus, if_neg hminus,
      groupedDigits_of_digits _ h (by simp), if_pos]
    rw [dropUnders_eq_self _ (fun x hx => (isDigitC_ne_special (h x hx)).1)]

theorem pyInt_natToDecL (n : Nat) : pyInt (natToDecL n) = some ((n : Int)) := by
  unfold pyInt
  rw [pyStrip_eq_self _ (fun c hc => (natToDecL_char_facts n c hc).2.1)]
  rw [pyIntCore_digits _ (fun c hc => (natToDecL_char_facts n c hc).1) (natToDecL_ne_nil n)]
  rw [decVal_natToDecL]

/-! ## Lemmas: deduplication -/

theorem dedupAux_sublist : ∀ (l seen : List Int), List.Sublist (dedupAux seen l) l := by
  intro l
  induction l with
  | nil => intro seen; simp [dedupAux]
  | cons p ps ih =>
    intro seen
    by_cases h : p ∈ seen
    · simpa [dedupAux, h] using (ih seen).trans (List.sublist_cons_self p ps)
    · simpa [dedupAux, h] using (ih (p :: seen)).cons₂ p

theorem mem_dedupAux : ∀ (l seen : List Int) (x : Int),
    x ∈ dedupAux seen l ↔ x ∈ l ∧ x ∉ seen := by
  intro l
  induction l with
  | nil => intro seen x; simp [dedupAux]
  | cons p ps ih =>
    intro seen x
    by_cases h : p ∈ seen
    · simp only [dedupAux, if_pos h, ih, List.mem_cons]
      constructor
      · rintro ⟨hx, hs⟩; exact ⟨Or.inr hx, hs⟩
      · rintro ⟨hx | hx, hs⟩
        · exact absurd (hx ▸ h) hs
        · exact ⟨hx, hs⟩
    · simp only [dedupAux, if_neg h, List.mem_cons, ih, List.mem_cons]
      constructor
      · rintro (rfl | ⟨hx, hs⟩)
        · exact ⟨Or.inl rfl, h⟩
        · exact ⟨Or.inr hx, fun hx' => hs (Or.inr hx')⟩
      · rintro ⟨rfl | hx, hs⟩
        · exact Or.inl rfl
        · by_cases hxp : x = p
          · exact Or.inl hxp
          · exact Or.inr ⟨hx, by simp [hxp, hs]⟩

theorem dedupAux_nodup : ∀ (l seen : List Int), (dedupAux seen l).Nodup := by
  intro l
  induction l with
  | nil => intro seen; simp [dedupAux]
  | cons p ps ih =>
    intro seen
    by_cases h : p ∈ seen
    · simpa [dedupAux, h] using ih seen
    · simp only [dedupAux, if_neg h, List.nodup_cons]
      exact ⟨fun hmem => by simp [mem_dedupAux] at hmem, ih (p :: seen)⟩

theorem dedupAux_eq_self : ∀ (l seen : List Int), l.Nodup →
    (∀ x ∈ l, x ∉ seen) → dedupAux seen l = l := by
  intro l
  induction l with
  | nil => intro seen _ _; rfl
  | cons p ps ih =>
    intro seen hnd hs
    simp only [dedupAux, if_neg (hs p (by simp))]
    rw [ih (p :: seen) (List.Nodup.of_cons hnd)]
    intro x hx
    simp only [List.mem_cons, not_or]
    exact ⟨fun hxp => (List.nodup_cons.mp hnd).1 (hxp ▸ hx), hs x (by simp [hx])⟩

theorem dedupFirst_sublist (l : List Int) : List.Sublist (dedupFirst l) l :=
  dedupAux_sublist l []

theorem mem_dedupFirst (l : List Int) (x : Int) : x ∈ dedupFirst l ↔ x ∈ l := by
  simp [dedupFirst, mem_dedupAux]

theorem dedupFirst_nodup (l : List Int) : (dedupFirst l).Nodup := dedupAux_nodup l []

theorem dedupFirst_eq_self (l : List Int) (h : l.Nodup) : dedupFirst l = l :=
  dedupAux_eq_self l [] h (by simp)

/-! ## Lemmas: `intRange` -/

theorem mem_intRange (a b p : Int) : p ∈ intRange a b ↔ a ≤ p ∧ p ≤ b := by
  simp only [intRange, List.mem_map, List.mem_range]
  constructor
  · rintro ⟨i, hi, rfl⟩; omega
  · rintro ⟨h1, h2⟩
    exact ⟨(p - a).toNat, by omega, by omega⟩

theorem intRange_one_eq (M : Nat) :
    intRange 1 (M : Int) = (List.range M).map (fun (i : Nat) => (i : Int) + 1) := by
  unfold intRange
  have h1 : ((M : Int) + 1 - 1).toNat = M := by omega
  rw [h1]
  exact List.map_congr_left (fun i _ => by omega)

theorem intRange_one_succ (n : Nat) :
    intRange 1 ((n : Int) + 1) = intRange 1 (n : Int) ++ [(n : Int) + 1] := by
  unfold intRange
  have h1 : ((n : Int) + 1 + 1 - 1).toNat = n + 1 := by omega
  have h2 : ((n : Int) + 1 - 1).toNat = n := by omega
  rw [h1, h2, List.range_succ, List.map_append]
  simp
  omega

/-! ## Lemmas: `parseAll` -/

theorem parseAll_ok_iff (tokens : List (List Char)) (M : Nat) (ls : List (List Int)) :
    parseAll tokens M = .ok ls ↔
      List.Forall₂ (fun t l => parse_one_token t M = .ok l) tokens ls := by
  induction tokens generalizing ls with
  | nil =>
    simp only [parseAll]
    constructor
    · rintro h; cases h; exact List.Forall₂.nil
    · rintro h; cases h; rfl
  | cons t ts ih =>
    simp only [parseAll]
    constructor
    · intro h
      cases hp : parse_one_token t M with
      | error e => rw [hp] at h; cases h
      | ok l =>
        rw [hp] at h
        cases hr : parseAll ts M with
        | error e => rw [hr] at h; cases h
        | ok ls' =>
          rw [hr] at h
          cases h
          exact List.Forall₂.cons hp ((ih ls').mp hr)
    · intro h
      cases h with
      | cons hp hrest =>
        rw [hp]
        rename_i l ls'
        rw [(ih ls').mpr hrest]

theorem parseAll_append_ok (pre post : List (List Char)) (M : Nat)
    (lpre : List (List Int)) (h : parseAll pre M = .ok lpre) :
    parseAll (pre ++ post) M =
      match parseAll post M with
      | .error e => .error e
      | .ok lpost => .ok (lpre ++ lpost) := by
  induction pre generalizing lpre with
  | nil =>
    simp only [parseAll] at h
    cases h
    simp only [List.nil_append]
    cases parseAll post M <;> rfl
  | cons t ts ih =>
    simp only [parseAll] at h
    cases hp : parse_one_token t M with
    | error e => rw [hp] at h; cases h
    | ok l =>
      rw [hp] at h
      cases hr : parseAll ts M with
      | error e => rw [hr] at h; cases h
      | ok ls' =>
        rw [hr] at h
        cases h
        cases hq : parseAll post M with
        | error e =>
          have h2 := ih ls' hr
          rw [hq] at h2
          dsimp only at h2
          simp only [List.cons_append, List.append_eq, parseAll, hp, h2]
        | ok lp =>
          have h2 := ih ls' hr
          rw [hq] at h2
          dsimp only at h2
          simp only [List.cons_append, List.append_eq, parseAll, hp, h2]

theorem parseAll_error_head (bad : List Char) (post : List (List Char)) (M : Nat)
    (e : String) (h : parse_one_token bad M = .error e) :
    parseAll (bad :: post) M = .error e := by
  simp only [parseAll, h]

/-! ## Lemmas: the parser invariant (clamping bounds) -/

theorem parse_one_mem_bounds (tok : List Char) (M : Nat) (l : List Int)
    (hM : 1 ≤ M) (h : parse_one_token tok M = .ok l) :
    ∀ p ∈ l, 1 ≤ p ∧ p ≤ (M : Int) := by
  intro p hp
  simp only [parse_one_token] at h
  repeat' split at h
  all_goals first
    | exact Except.noConfusion h
    | (injection h with h; subst h
       try simp only [Bool.or_eq_true, decide_eq_true_eq, not_or] at *
       simp only [mem_intRange, List.mem_singleton, List.not_mem_nil] at hp
       all_goals omega)

theorem forall₂_mem_right {α β : Type} {R : α → β → Prop} :
    ∀ {ts : List α} {ls : List β}, List.Forall₂ R ts ls →
      ∀ l ∈ ls, ∃ t ∈ ts, R t l := by
  intro ts ls h
  induction h with
  | nil => intro l hl; cases hl
  | cons hR _ ih =>
    intro l hl
    rcases hl with _ | hl
    · exact ⟨_, by simp, hR⟩
    · obtain ⟨t, ht, hRt⟩ := ih l (by assumption)
      exact ⟨t, by simp [ht], hRt⟩

theorem parse_core_ok_elim (tokens : List (List Char)) (M : Nat) (ps : List Int)
    (h : parse_pagespec_core tokens M = .ok ps) :
    ∃ ls, List.Forall₂ (fun t l => parse_one_token t M = .ok l) tokens ls ∧
      ps = dedupFirst ls.flatten := by
  unfold parse_pagespec_core at h
  cases hr : parseAll tokens M with
  | error e => rw [hr] at h; cases h
  | ok ls =>
    rw [hr] at h
    injection h with h
    exact ⟨ls, (parseAll_ok_iff tokens M ls).mp hr, h.symm⟩

theorem parse_core_mem_bounds (tokens : List (List Char)) (M : Nat) (ps : List Int)
    (hM : 1 ≤ M) (h : parse_pagespec_core tokens M = .ok ps) :
    ∀ p ∈ ps, 1 ≤ p ∧ p ≤ (M : Int) := by
  obtain ⟨ls, hall, rfl⟩ := parse_core_ok_elim tokens M ps h
  intro p hp
  rw [mem_dedupFirst] at hp
  obtain ⟨l, hl, hpl⟩ := List.mem_flatten.mp hp
  obtain ⟨t, _, ht⟩ := forall₂_mem_right hall l hl
  exact parse_one_mem_bounds t M l hM ht p hpl

/-! ## Claim C1 (corrected) -/

/-- Claim C1, counterexample to the claim as stated: at `maxPages = 0` the
syntactically valid numeric token `"5"` is clamped to `min 5 0 = 0`, so the
result is the non-empty list `[0]` whose element violates `1 ≤ p ≤ maxPages`. -/
theorem claim_C1_counterexample :
    parse_pagespec "5" 0 = .ok [0] ∧ (0 : Int) ∈ [(0 : Int)] ∧
      ¬(1 ≤ (0 : Int) ∧ (0 : Int) ≤ ((0 : Nat) : Int)) ∧ [(0 : Int)] ≠ [] := by
  refine ⟨rfl, by decide, by decide, by decide⟩

/-- Claim C1 (amended): for every spec — string or token sequence — and every
`maxPages ≥ 1`, every element `p` of the PageList returned by `parse_pagespec`
satisfies `1 ≤ p ≤ maxPages`.  (At `maxPages = 0` the code instead clamps
numeric, closed-range, and open-end tokens to the out-of-range page `0`.) -/
theorem claim_C1_pagelist_bounds (M : Nat) (hM : 1 ≤ M) :
    (∀ (spec : String) (ps : List Int), parse_pagespec spec M = .ok ps →
      ∀ p ∈ ps, 1 ≤ p ∧ p ≤ (M : Int)) ∧
    (∀ (tokens : List String) (ps : List Int),
      parse_pagespec_tokenList tokens M = .ok ps →
      ∀ p ∈ ps, 1 ≤ p ∧ p ≤ (M : Int)) :=
  ⟨fun _ ps h => parse_core_mem_bounds _ M ps hM h,
   fun _ ps h => parse_core_mem_bounds _ M ps hM h⟩

/-- Witness for C1: the bounds hold on the concrete parse
`parse_pagespec "3,1-3" 5 = ok [3,1,2]`. -/
theorem claim_C1_witness : 1 ≤ (3 : Int) ∧ (3 : Int) ≤ ((5 : Nat) : Int) :=
  (claim_C1_pagelist_bounds 5 (by decide)).1 "3,1-3" [3, 1, 2] rfl 3 (by decide)

/-! ## Claim C3 (dedup keeps first occurrences, in token order) -/

/-- Claim C3: `parse_pagespec` concatenates per-token results left to right
(`Forall₂` pairs each token with its result, in order) and deduplicates the
concatenation keeping first occurrences: the result is `dedupFirst` of the
concatenation, a duplicate-free sublist of it (so kept values are never
reordered) with the same members; in particular
`parse_pagespec "3,1-3" 5 = [3,1,2]`. -/
theorem claim_C3_dedup_first_order :
    parse_pagespec "3,1-3" 5 = .ok [3, 1, 2] ∧
    ∀ (tokens : List (List Char)) (M : Nat) (ps : List Int),
      parse_pagespec_core tokens M = .ok ps →
      ∃ ls, List.Forall₂ (fun t l => parse_one_token t M = .ok l) tokens ls ∧
        ps = dedupFirst ls.flatten ∧ List.Sublist ps ls.flatten ∧
        ps.Nodup ∧ ∀ x, x ∈ ps ↔ x ∈ ls.flatten := by
  refine ⟨rfl, ?_⟩
  intro tokens M ps h
  obtain ⟨ls, hall, hps⟩ := parse_core_ok_elim tokens M ps h
  subst hps
  exact ⟨ls, hall, rfl, dedupFirst_sublist _, dedupFirst_nodup _,
    fun x => mem_dedupFirst _ x⟩

/-- Witness for C3 at the concrete spec `"3,1-3"` with 5 pages. -/
theorem claim_C3_witness :
    ∃ ls, List.Forall₂ (fun t l => parse_one_token t 5 = .ok l)
        ["3".data, "1-3".data] ls ∧
      [(3 : Int), 1, 2] = dedupFirst ls.flatten ∧
      List.Sublist [(3 : Int), 1, 2] ls.flatten ∧
      ([(3 : Int), 1, 2] : List Int).Nodup ∧
      ∀ x, x ∈ [(3 : Int), 1, 2] ↔ x ∈ ls.flatten :=
  claim_C3_dedup_first_order.2 ["3".data, "1-3".data] 5 [3, 1, 2] rfl

/-! ## Claim C7 (the `all` token) -/

/-- Claim C7: any token whose trimmed, lower-cased form is `all` parses,
for every `maxPages ≥ 0`, to exactly `[1, 2, ..., maxPages]` (empty when
`maxPages = 0`) and never raises. -/
theorem claim_C7_all_token (tok : List Char) (M : Nat)
    (h : pyLower (pyStrip tok) = "all".data) :
    parse_one_token tok M = .ok (intRange 1 (M : Int)) ∧
    intRange 1 (M : Int) = (List.range M).map (fun (i : Nat) => (i : Int) + 1) := by
  refine ⟨?_, intRange_one_eq M⟩
  simp only [parse_one_token, h]
  simp

/-- Witness for C7: `" ALL "` on 3 pages gives `[1,2,3]`; `"all"` on a
0-page document gives `[]`. -/
theorem claim_C7_witness :
    (parse_one_token " ALL ".data 3 = .ok (intRange 1 ((3 : Nat) : Int)) ∧
      intRange 1 ((3 : Nat) : Int) =
        (List.range 3).map (fun (i : Nat) => (i : Int) + 1)) ∧
    (parse_one_token "all".data 0 = .ok (intRange 1 ((0 : Nat) : Int)) ∧
      intRange 1 ((0 : Nat) : Int) =
        (List.range 0).map (fun (i : Nat) => (i : Int) + 1)) :=
  ⟨claim_C7_all_token " ALL ".data 3 rfl,
   claim_C7_all_token "all".data 0 rfl⟩

end PdfTool
namespace PdfTool

theorem parse_one_isErr_eq (t : List Char) (M : Nat) :
    isErrB (parse_one_token t M) = tokenMalformed t := by
  simp only [parse_one_token, tokenMalformed]
  repeat' split
  all_goals simp_all [isErrB, endpointBad]

end PdfTool
namespace PdfTool

theorem parse_one_ok_of_not_malformed (t : List Char) (M : Nat)
    (h : tokenMalformed t = false) : ∃ l, parse_one_token t M = .ok l := by
  have := parse_one_isErr_eq t M
  rw [h] at this
  cases hp : parse_one_token t M with
  | error e => rw [hp] at this; simp [isErrB] at this
  | ok l => exact ⟨l, rfl⟩

theorem parse_one_error_of_malformed (t : List Char) (M : Nat)
    (h : tokenMalformed t = true) : ∃ e, parse_one_token t M = .error e := by
  have := parse_one_isErr_eq t M
  rw [h] at this
  cases hp : parse_one_token t M with
  | error e => exact ⟨e, rfl⟩
  | ok l => rw [hp] at this; simp [isErrB] at this

theorem parseAll_isErr_eq (tokens : List (List Char)) (M : Nat) :
    isErrB (parseAll tokens M) = tokens.any tokenMalformed := by
  induction tokens with
  | nil => simp [parseAll, isErrB]
  | cons t ts ih =>
    have h1 := parse_one_isErr_eq t M
    simp only [parseAll, List.any_cons]
    cases hp : parse_one_token t M with
    | error e =>
      rw [hp] at h1
      simp only [isErrB] at h1 ⊢
      rw [← h1, Bool.true_or]
    | ok l =>
      rw [hp] at h1
      simp only [isErrB] at h1
      rw [← h1, Bool.false_or]
      cases hr : parseAll ts M with
      | error e =>
        rw [hr] at ih
        simp only [isErrB] at ih ⊢
        exact ih
      | ok ls =>
        rw [hr] at ih
        simp only [isErrB] at ih ⊢
        exact ih

theorem parse_core_isErr_eq (tokens : List (List Char)) (M : Nat) :
    isErrB (parse_pagespec_core tokens M) = tokens.any tokenMalformed := by
  rw [← parseAll_isErr_eq tokens M]
  unfold parse_pagespec_core
  cases parseAll tokens M <;> rfl

theorem parseAll_ok_of_not_malformed (pre : List (List Char)) (M : Nat)
    (h : ∀ tk ∈ pre, tokenMalformed tk = false) :
    ∃ lpre, parseAll pre M = .ok lpre := by
  induction pre with
  | nil => exact ⟨[], rfl⟩
  | cons t ts ih =>
    obtain ⟨l, hl⟩ := parse_one_ok_of_not_malformed t M (h t (by simp))
    obtain ⟨ls, hls⟩ := ih (fun tk htk => h tk (by simp [htk]))
    exact ⟨l :: ls, by simp [parseAll, hl, hls]⟩

theorem parse_core_fail_fast (pre : List (List Char)) (bad : List Char)
    (post : List (List Char)) (M : Nat)
    (hpre : ∀ tk ∈ pre, tokenMalformed tk = false)
    (hbad : tokenMalformed bad = true) :
    ∃ e, parse_pagespec_core (pre ++ bad :: post) M = .error e ∧
      parse_one_token bad M = .error e := by
  obtain ⟨lpre, hl⟩ := parseAll_ok_of_not_malformed pre M hpre
  obtain ⟨e, he⟩ := parse_one_error_of_malformed bad M hbad
  refine ⟨e, ?_, he⟩
  have h2 := parseAll_append_ok pre (bad :: post) M lpre hl
  rw [parseAll_error_head bad post M e he] at h2
  unfold parse_pagespec_core
  rw [h2]

end PdfTool
namespace PdfTool

theorem strip_lower_id (cs : List Char)
    (h : ∀ c ∈ cs, c.isWhitespace = false ∧ c.toLower = c) :
    pyLower (pyStrip cs) = cs := by
  rw [pyStrip_eq_self cs (fun c hc => (h c hc).1),
    pyLower_eq_self cs (fun c hc => (h c hc).2)]

theorem natToDecL_strip_lower (n : Nat) :
    pyLower (pyStrip (natToDecL n)) = natToDecL n :=
  strip_lower_id _ (fun c hc =>
    ⟨(natToDecL_char_facts n c hc).2.1, (natToDecL_char_facts n c hc).2.2.1⟩)

theorem takeWhile_nondash (xs ys : List Char) (h : ∀ c ∈ xs, c ≠ '-') :
    (xs ++ '-' :: ys).takeWhile (fun c => c != '-') = xs := by
  induction xs with
  | nil => rw [List.nil_append, List.takeWhile_cons_of_neg (by decide)]
  | cons x xs ih =>
    have hx : (x != '-') = true := by simpa using h x (by simp)
    rw [List.cons_append, List.takeWhile_cons_of_pos (p := fun c => c != '-') hx,
      ih (fun c hc => h c (by simp [hc]))]

theorem dropWhile_nondash (xs ys : List Char) (h : ∀ c ∈ xs, c ≠ '-') :
    (xs ++ '-' :: ys).dropWhile (fun c => c != '-') = '-' :: ys := by
  induction xs with
  | nil => rw [List.nil_append, List.dropWhile_cons_of_neg (by decide)]
  | cons x xs ih =>
    have hx : (x != '-') = true := by simpa using h x (by simp)
    rw [List.cons_append, List.dropWhile_cons_of_pos (p := fun c => c != '-') hx,
      ih (fun c hc => h c (by simp [hc]))]

theorem split_digits_dash (xs ys : List Char) (h : ∀ c ∈ xs, c ≠ '-') :
    splitFirstDash (xs ++ '-' :: ys) = (xs, ys) := by
  unfold splitFirstDash
  rw [takeWhile_nondash xs ys h, dropWhile_nondash xs ys h]
  rfl

theorem dashCount_digits_dash (xs ys : List Char) (h : ∀ c ∈ xs, c ≠ '-') :
    dashCount (xs ++ '-' :: ys) = 1 + dashCount ys := by
  unfold dashCount
  rw [List.filter_append]
  have h1 : xs.filter (fun c => c == '-') = [] :=
    List.filter_eq_nil_iff.mpr (fun a ha => by simpa using h a ha)
  simp [h1]
  omega

theorem dashCount_digits (xs : List Char) (h : ∀ c ∈ xs, c ≠ '-') :
    dashCount xs = 0 := by
  unfold dashCount
  have h1 : xs.filter (fun c => c == '-') = [] :=
    List.filter_eq_nil_iff.mpr (fun a ha => by simpa using h a ha)
  simp [h1]

theorem contains_dash_of_append (xs ys : List Char) :
    (xs ++ '-' :: ys).contains '-' = true := by
  simp [List.contains_eq_any_beq]

theorem digits_ne_all (xs : List Char) (h : ∀ c ∈ xs, isDigitC c = true) :
    ¬xs = "all".data := by
  intro he
  have : 'a' ∈ xs := by rw [he]; decide
  have := h 'a' this
  simp [isDigitC] at this

theorem digits_dash_ne_all (xs ys : List Char) :
    ¬(xs ++ '-' :: ys) = "all".data := by
  intro he
  have : '-' ∈ "all".data := by rw [← he]; simp
  simp at this

/-- An `"A-"` token on the parser: open-end range. -/
theorem parse_open_end (A M : Nat) (hA : 1 ≤ A) :
    parse_one_token (natToDecL A ++ ['-']) M =
      .ok (intRange (min (A : Int) (M : Int)) (M : Int)) := by
  have hfacts := natToDecL_char_facts A
  have hid : pyLower (pyStrip (natToDecL A ++ ['-'])) = natToDecL A ++ ['-'] :=
    strip_lower_id _ (by
      intro c hc
      rcases List.mem_append.mp hc with hc | hc
      · exact ⟨(hfacts c hc).2.1, (hfacts c hc).2.2.1⟩
      · simp at hc; subst hc; exact ⟨by decide, by decide⟩)
  have hsplit : splitFirstDash (natToDecL A ++ '-' :: []) = (natToDecL A, []) :=
    split_digits_dash _ _ (fun c hc => (hfacts c hc).2.2.2.2.1)
  have hdash : dashCount (natToDecL A ++ '-' :: []) = 1 := by
    rw [dashCount_digits_dash _ _ (fun c hc => (hfacts c hc).2.2.2.2.1)]
    simp [dashCount]
  have hne1 : (natToDecL A).isEmpty = false :=
    List.isEmpty_eq_false.mpr (natToDecL_ne_nil A)
  have hnotlt : ¬((A : Int) < 1) := by omega
  simp only [parse_one_token, hid, List.isEmpty_eq_false, hsplit, hdash,
    contains_dash_of_append, digits_dash_ne_all, pyInt_natToDecL,
    if_true, if_false, hne1]
  simp [natToDecL_ne_nil A, hnotlt, digits_dash_ne_all]
  intro he
  exact absurd he (digits_dash_ne_all _ _)

/-- A `"-B"` token on the parser: open-start range. -/
theorem parse_open_start (B M : Nat) (hB : 1 ≤ B) :
    parse_one_token ('-' :: natToDecL B) M =
      .ok (intRange 1 (min (B : Int) (M : Int))) := by
  have hfacts := natToDecL_char_facts B
  have hid : pyLower (pyStrip ('-' :: natToDecL B)) = '-' :: natToDecL B := by
    have := strip_lower_id (([] : List Char) ++ '-' :: natToDecL B) (by
      intro c hc
      rcases List.mem_append.mp hc with hc | hc
      · simp at hc
      · rcases hc with _ | hc
        · exact ⟨by decide, by decide⟩
        · exact ⟨(hfacts c (by assumption)).2.1, (hfacts c (by assumption)).2.2.1⟩)
    exact this
  have hsplit : splitFirstDash (([] : List Char) ++ '-' :: natToDecL B) =
      ([], natToDecL B) := split_digits_dash _ _ (by simp)
  have hdash : dashCount (([] : List Char) ++ '-' :: natToDecL B) = 1 := by
    rw [dashCount_digits_dash _ _ (by simp),
      dashCount_digits _ (fun c hc => (hfacts c hc).2.2.2.2.1)]
  have hcont := contains_dash_of_append ([] : List Char) (natToDecL B)
  have hnall : ¬('-' :: natToDecL B) = "all".data := by
    have := digits_dash_ne_all ([] : List Char) (natToDecL B)
    exact this
  have hne1 : (natToDecL B).isEmpty = false :=
    List.isEmpty_eq_false.mpr (natToDecL_ne_nil B)
  have hnotlt : ¬((B : Int) < 1) := by omega
  simp only [List.nil_append] at hsplit hdash hcont
  simp only [parse_one_token, hid, hsplit, hdash, hcont, hnall, pyInt_natToDecL,
    if_true, if_false, hne1]
  simp [hnotlt]

/-- A bare positive number on the parser. -/
theorem parse_number (n M : Nat) (hn : 1 ≤ n) :
    parse_one_token (natToDecL n) M = .ok [min (n : Int) (M : Int)] := by
  have hfacts := natToDecL_char_facts n
  have hid := natToDecL_strip_lower n
  have hnall : ¬(natToDecL n) = "all".data :=
    digits_ne_all _ (fun c hc => (hfacts c hc).1)
  have hcont : (natToDecL n).contains '-' = false := by
    rw [List.contains_eq_any_beq]
    rw [List.any_eq_false]
    intro c hc
    have := (hfacts c hc).2.2.2.2.1
    simp [this]
    intro he
    exact absurd he.symm this
  have hne1 : (natToDecL n).isEmpty = false :=
    List.isEmpty_eq_false.mpr (natToDecL_ne_nil n)
  have hnotlt : ¬((n : Int) < 1) := by omega
  simp only [parse_one_token, hid, hne1, hnall, hcont, pyInt_natToDecL,
    if_true, if_false]
  simp [hnotlt]

end PdfTool
namespace PdfTool

/-! ## Claim C2 (errors exactly on structurally malformed tokens, fail-fast) -/

/-- Claim C2: `parse_pagespec` raises iff some comma-separated token is
structurally malformed in the enumerated sense (`tokenMalformed`, which does
not depend on `maxPages`); the first invalid token aborts the whole parse and
its error is the parse's error; empty tokens and an empty overall spec are
not errors and yield an empty PageList. -/
theorem claim_C2_error_characterization :
    (∀ (tok : List Char) (M : Nat),
      isErrB (parse_one_token tok M) = tokenMalformed tok) ∧
    (∀ (tokens : List (List Char)) (M : Nat),
      isErrB (parse_pagespec_core tokens M) = tokens.any tokenMalformed) ∧
    (∀ (pre : List (List Char)) (bad : List Char) (post : List (List Char))
      (M : Nat), (∀ tk ∈ pre, tokenMalformed tk = false) →
      tokenMalformed bad = true →
      ∃ e, parse_pagespec_core (pre ++ bad :: post) M = .error e ∧
        parse_one_token bad M = .error e) ∧
    (∀ M : Nat, parse_pagespec "" M = .ok []) ∧
    (∀ (tok : List Char) (M : Nat), pyStrip tok = [] →
      parse_one_token tok M = .ok []) := by
  refine ⟨parse_one_isErr_eq, parse_core_isErr_eq, parse_core_fail_fast,
    fun M => rfl, ?_⟩
  intro tok M h
  rw [parse_one_token]
  rw [h]
  rfl

/-- Witness for C2: in `"1,5-2,3"` on 9 pages the malformed middle token
`"5-2"` aborts the whole parse with its own error. -/
theorem claim_C2_witness :
    ∃ e, parse_pagespec_core ["1".data, "5-2".data, "3".data] 9 = .error e ∧
      parse_one_token "5-2".data 9 = .error e :=
  claim_C2_error_characterization.2.2.1 ["1".data] "5-2".data ["3".data] 9
    (by decide) (by decide)

/-! ## Claim C4 (open ranges) -/

/-- Claim C4: for `maxPages ≥ 1`, the open-end token `A-` with `A ≥ 1` yields
`[min(A,maxPages) .. maxPages]` — a single page `maxPages` when
`A > maxPages` — and the open-start token `-B` with `B ≥ 1` yields
`[1 .. min(B,maxPages)]`. -/
theorem claim_C4_open_ranges (A B M : Nat) (hA : 1 ≤ A) (hB : 1 ≤ B)
    (_hM : 1 ≤ M) :
    parse_one_token (natToDecL A ++ ['-']) M =
      .ok (intRange (min (A : Int) (M : Int)) (M : Int)) ∧
    parse_one_token ('-' :: natToDecL B) M =
      .ok (intRange 1 (min (B : Int) (M : Int))) ∧
    (M < A → intRange (min (A : Int) (M : Int)) (M : Int) = [(M : Int)]) := by
  refine ⟨parse_open_end A M hA, parse_open_start B M hB, ?_⟩
  intro hMA
  have h1 : min (A : Int) (M : Int) = (M : Int) := by omega
  rw [h1]
  unfold intRange
  have h2 : ((M : Int) + 1 - (M : Int)).toNat = 1 := by omega
  rw [h2]
  rw [show List.range 1 = [0] from rfl]
  simp

/-- Witness for C4: `"-5"` on 10 pages is `[1..5]`, `"4-"` on 10 pages is
`[4..10]`, and `"4-"` on 3 pages degenerates to `[3]`. -/
theorem claim_C4_witness :
    parse_one_token "4-".data 10 = .ok [4, 5, 6, 7, 8, 9, 10] ∧
    parse_one_token "-5".data 10 = .ok [1, 2, 3, 4, 5] ∧
    parse_one_token "4-".data 3 = .ok [3] := by
  have h10 := claim_C4_open_ranges 4 5 10 (by decide) (by decide) (by decide)
  have h3 := claim_C4_open_ranges 4 5 3 (by decide) (by decide) (by decide)
  refine ⟨?_, ?_, ?_⟩
  · have := h10.1
    rw [show natToDecL 4 ++ ['-'] = "4-".data from rfl] at this
    rw [this]
    rfl
  · have := h10.2.1
    rw [show '-' :: natToDecL 5 = "-5".data from rfl] at this
    rw [this]
    rfl
  · have := h3.1
    rw [show natToDecL 4 ++ ['-'] = "4-".data from rfl] at this
    rw [this, h3.2.2 (by decide)]
    norm_num

end PdfTool
namespace PdfTool

theorem splitOnComma_no_comma (p : List Char) (h : ',' ∉ p) : splitOnComma p = [p] := by
  induction p with
  | nil => rfl
  | cons c rest ih =>
    have hc : ¬c = ',' := fun he => h (by simp [he])
    simp only [splitOnComma, if_neg hc]
    rw [ih (fun hm => h (by simp [hm]))]

theorem splitOnComma_append (xs ys : List Char) (h : ',' ∉ xs) :
    splitOnComma (xs ++ ',' :: ys) = xs :: splitOnComma ys := by
  induction xs with
  | nil => simp [splitOnComma]
  | cons c rest ih =>
    have hc : ¬c = ',' := fun he => h (by simp [he])
    simp only [List.cons_append, splitOnComma, if_neg hc, List.append_eq]
    rw [ih (fun hm => h (by simp [hm]))]

theorem splitOnComma_joinComma : ∀ (parts : List (List Char)), parts ≠ [] →
    (∀ p ∈ parts, ',' ∉ p) → splitOnComma (joinComma parts) = parts
  | [], h, _ => absurd rfl h
  | [p], _, hc => by
    rw [show joinComma [p] = p from rfl]
    exact splitOnComma_no_comma p (hc p (by simp))
  | p :: q :: qs, _, hc => by
    rw [show joinComma (p :: q :: qs) = p ++ ',' :: joinComma (q :: qs) from rfl]
    rw [splitOnComma_append p _ (hc p (by simp))]
    rw [splitOnComma_joinComma (q :: qs) (by simp) (fun r hr => hc r (by simp [hr]))]

theorem pyStrL_pos (p : Int) (hp : 1 ≤ p) : pyStrL p = natToDecL p.toNat := by
  unfold pyStrL
  rw [if_neg (by omega)]

theorem flatten_map_singleton (ps : List Int) :
    (ps.map (fun p => [p])).flatten = ps := by
  induction ps <;> simp_all

theorem specParts_digits (ps : List Int) (hps : ∀ p ∈ ps, 1 ≤ p) (hne : ps ≠ []) :
    specParts (joinComma (ps.map pyStrL)) = ps.map pyStrL := by
  have hcommas : ∀ p ∈ ps.map pyStrL, ',' ∉ p := by
    intro part hpart hm
    obtain ⟨q, hq, rfl⟩ := List.mem_map.mp hpart
    rw [pyStrL_pos q (hps q hq)] at hm
    exact (natToDecL_char_facts q.toNat ',' hm).2.2.2.2.2.1 rfl
  have hfilter : ∀ p ∈ ps.map pyStrL, (!(pyStrip p).isEmpty) = true := by
    intro part hpart
    obtain ⟨q, hq, rfl⟩ := List.mem_map.mp hpart
    rw [pyStrL_pos q (hps q hq)]
    rw [pyStrip_eq_self _ (fun c hc => (natToDecL_char_facts q.toNat c hc).2.1)]
    simp [natToDecL_ne_nil q.toNat]
  unfold specParts
  rw [splitOnComma_joinComma (ps.map pyStrL) (by simp [hne]) hcommas,
    List.filter_eq_self.mpr hfilter]

theorem parseAll_digit_tokens (ps : List Int) (M : Nat)
    (h : ∀ p ∈ ps, 1 ≤ p ∧ p ≤ (M : Int)) :
    parseAll (ps.map (fun p => (pyStrL p))) M = .ok (ps.map (fun p => [p])) := by
  induction ps with
  | nil => rfl
  | cons p ps ih =>
    have hp := h p (by simp)
    have hmin : min ((p.toNat : Nat) : Int) ((M : Nat) : Int) = p := by omega
    simp only [List.map_cons, parseAll, pyStrL_pos p hp.1,
      parse_number p.toNat M (by omega), hmin,
      ih (fun q hq => h q (by simp [hq]))]

/-- Claim C9: re-parsing the comma-joined rendering of a successful parse
reproduces it exactly. -/
theorem claim_C9_round_trip (spec : String) (M : Nat) (ps : List Int)
    (hM : 1 ≤ M) (h : parse_pagespec spec M = .ok ps) :
    parse_pagespec (renderPages ps) M = .ok ps := by
  have hbounds := parse_core_mem_bounds _ M ps hM h
  have hnodup : ps.Nodup := by
    obtain ⟨ls, _, hps⟩ := parse_core_ok_elim _ M ps h
    subst hps
    exact dedupFirst_nodup _
  cases hpe : ps with
  | nil => rfl
  | cons p0 ps0 =>
    rw [← hpe]
    have hne : ps ≠ [] := by rw [hpe]; simp
    show parse_pagespec_core (specParts (joinComma (ps.map pyStrL))) M = .ok ps
    rw [specParts_digits ps (fun p hp => (hbounds p hp).1) hne]
    unfold parse_pagespec_core
    rw [parseAll_digit_tokens ps M hbounds]
    dsimp only
    rw [flatten_map_singleton, dedupFirst_eq_self ps hnodup]

/-- Witness for C9 at `spec = "3,1-3"`, 5 pages. -/
theorem claim_C9_witness : parse_pagespec (renderPages [3, 1, 2]) 5 = .ok [3, 1, 2] :=
  claim_C9_round_trip "3,1-3" 5 [3, 1, 2] (by decide) rfl

end PdfTool
namespace PdfTool

theorem mergeStep_decompose (sel : String → Option (List Int)) (bk : Bool)
    (s : List (String × Int)) (b : List (String × Nat)) (e : SourceEntry) :
    mergeStep sel bk ⟨s, b⟩ e =
      ⟨s ++ (mergeStep sel bk ⟨[], []⟩ e).steps,
       b ++ (mergeStep sel bk ⟨[], []⟩ e).bookmarks.map
         (fun x => (x.1, x.2 + s.length))⟩ := by
  unfold mergeStep
  by_cases h1 : e.readable
  · by_cases h2 : e.pageCount < 1
    · simp [h1, h2]
    · by_cases h3 : bk && !(wantedOf sel e).isEmpty
      · simp [h1, h2, h3]
      · simp [h1, h2, h3]
  · simp [h1]

theorem foldl_merge_decompose (sel : String → Option (List Int)) (bk : Bool) :
    ∀ (es : List SourceEntry) (s : List (String × Int)) (b : List (String × Nat)),
    es.foldl (mergeStep sel bk) ⟨s, b⟩ =
      ⟨s ++ (es.foldl (mergeStep sel bk) ⟨[], []⟩).steps,
       b ++ (es.foldl (mergeStep sel bk) ⟨[], []⟩).bookmarks.map
         (fun x => (x.1, x.2 + s.length))⟩ := by
  intro es
  induction es with
  | nil => intro s b; simp
  | cons e es ih =>
    intro s b
    rw [List.foldl_cons, List.foldl_cons, mergeStep_decompose sel bk s b e]
    cases hm : mergeStep sel bk ⟨[], []⟩ e with
    | mk s1 b1 =>
      dsimp only
      rw [ih (s ++ s1) (b ++ b1.map (fun x => (x.1, x.2 + s.length))), ih s1 b1]
      cases hf : es.foldl (mergeStep sel bk) ⟨[], []⟩ with
      | mk s2 b2 =>
        dsimp only
        refine congrArg₂ MergePlan.mk ?_ ?_
        · rw [List.append_assoc]
        · rw [List.append_assoc, List.map_append, List.map_map]
          refine congrArg (fun x => b ++ (List.map (fun y => (y.1, y.2 + s.length)) b1 ++ x)) ?_
          refine List.map_congr_left (fun x _ => ?_)
          simp only [Function.comp, List.length_append]
          refine congrArg (fun n => (x.1, n)) ?_
          omega

theorem buildMergePlan_cons (e : SourceEntry) (es : List SourceEntry)
    (sel : String → Option (List Int)) (bk : Bool) :
    buildMergePlan (e :: es) sel bk =
      ⟨(mergeStep sel bk ⟨[], []⟩ e).steps ++ (buildMergePlan es sel bk).steps,
       (mergeStep sel bk ⟨[], []⟩ e).bookmarks ++
         (buildMergePlan es sel bk).bookmarks.map
           (fun x => (x.1, x.2 + (mergeStep sel bk ⟨[], []⟩ e).steps.length))⟩ := by
  unfold buildMergePlan
  rw [List.foldl_cons]
  cases hm : mergeStep sel bk ⟨[], []⟩ e with
  | mk s1 b1 => exact foldl_merge_decompose sel bk es s1 b1

theorem entrySteps_in_range (e : SourceEntry) (w : List Int)
    (h : ∀ p ∈ w, 1 ≤ p ∧ p ≤ (e.pageCount : Int)) :
    entrySteps e w = w.map (fun p => (e.name, p - 1)) := by
  induction w with
  | nil => rfl
  | cons p ps ih =>
    have hp := h p (by simp)
    unfold entrySteps
    rw [List.filterMap_cons]
    dsimp only
    rw [if_pos (by omega)]
    rw [show List.filterMap _ ps = entrySteps e ps from rfl,
      ih (fun q hq => h q (by simp [hq])), List.map_cons]

end PdfTool
namespace PdfTool

theorem wantedOf_of_some (sel : String → Option (List Int)) (e : SourceEntry)
    (h : sel e.name ≠ none) : wantedOf sel e = (sel e.name).getD [] := by
  unfold wantedOf
  cases hs : sel e.name with
  | none => exact absurd hs h
  | some w => rfl

theorem mergeStep_good (sel : String → Option (List Int)) (e : SourceEntry)
    (hg : goodEntry sel e) :
    mergeStep sel true ⟨[], []⟩ e =
      ⟨((sel e.name).getD []).map (fun p => (e.name, p - 1)),
       [(basename e.name, 0)]⟩ := by
  obtain ⟨hr, hpc, hsome, hne, hin⟩ := hg
  have hw : wantedOf sel e = (sel e.name).getD [] := wantedOf_of_some sel e hsome
  unfold mergeStep
  rw [if_neg (by simp [hr]), if_neg (by omega)]
  rw [hw]
  dsimp only
  rw [if_pos (show (true && !((sel e.name).getD []).isEmpty) = true by simp [hne])]
  dsimp only
  rw [entrySteps_in_range e _ hin]
  rfl

theorem expectedBookmarks_shift (sel : String → Option (List Int)) :
    ∀ (es : List SourceEntry) (k : Nat),
    expectedBookmarks sel es k =
      (expectedBookmarks sel es 0).map (fun x => (x.1, x.2 + k)) := by
  intro es
  induction es with
  | nil => intro k; rfl
  | cons e es ih =>
    intro k
    rw [expectedBookmarks, expectedBookmarks, List.map_cons]
    rw [ih (k + (wantedOf sel e).length), ih (0 + (wantedOf sel e).length),
      List.map_map]
    refine congrArg₂ _ (by simp) ?_
    refine List.map_congr_left (fun x _ => ?_)
    simp only [Function.comp]
    refine congrArg (fun n => (x.1, n)) ?_
    omega

/-- Claim C5: with as-given order and bookmarks on, the merge loop emits,
for entries with present, non-empty, in-range selections, exactly the pages
of each entry in its PageList order (page `p` drawn as 0-based `p - 1`),
entries in given order, and records one bookmark per entry labeled with its
basename at the output position preceding that entry's pages. -/
theorem claim_C5_merge_plan (entries : List SourceEntry)
    (sel : String → Option (List Int)) (h : ∀ e ∈ entries, goodEntry sel e) :
    (buildMergePlan entries sel true).steps =
      entries.flatMap
        (fun e => ((sel e.name).getD []).map (fun p => (e.name, p - 1))) ∧
    (buildMergePlan entries sel true).bookmarks =
      expectedBookmarks sel entries 0 := by
  induction entries with
  | nil => exact ⟨rfl, rfl⟩
  | cons e es ih =>
    obtain ⟨ihs, ihb⟩ := ih (fun x hx => h x (by simp [hx]))
    have hg := h e (by simp)
    have hcons := buildMergePlan_cons e es sel true
    rw [mergeStep_good sel e hg] at hcons
    rw [hcons]
    dsimp only
    constructor
    · rw [ihs, List.flatMap_cons]
    · rw [ihb, expectedBookmarks]
      have hw : wantedOf sel e = (sel e.name).getD [] :=
        wantedOf_of_some sel e hg.2.2.1
      rw [expectedBookmarks_shift sel es (0 + (wantedOf sel e).length)]
      rw [hw]
      simp [List.length_map]

/-- Witness for C5: entries `A:[2,1]` and `B:[1]` give plan steps
`[(A,1),(A,0),(B,0)]` with bookmark "A" at output position 0 and bookmark
"B" at output position 2. -/
theorem claim_C5_witness :
    (buildMergePlan [⟨"A", true, 2⟩, ⟨"B", true, 1⟩]
        (fun n => if n = "A" then some [2, 1] else
          if n = "B" then some [1] else none) true).steps =
      [("A", 1), ("A", 0), ("B", 0)] ∧
    (buildMergePlan [⟨"A", true, 2⟩, ⟨"B", true, 1⟩]
        (fun n => if n = "A" then some [2, 1] else
          if n = "B" then some [1] else none) true).bookmarks =
      [("A", 0), ("B", 2)] := by
  have h := claim_C5_merge_plan
    [⟨"A", true, 2⟩, ⟨"B", true, 1⟩]
    (fun n => if n = "A" then some [2, 1] else if n = "B" then some [1] else none)
    (by decide)
  refine ⟨h.1.trans (by decide), h.2.trans (by decide)⟩

end PdfTool
namespace PdfTool

theorem entrySteps_filter_eq (e : SourceEntry) (w : List Int) :
    entrySteps e w =
      (w.filter (fun p => decide (1 ≤ p) && decide (p ≤ (e.pageCount : Int)))).map
        (fun p => (e.name, p - 1)) := by
  induction w with
  | nil => rfl
  | cons p ps ih =>
    unfold entrySteps
    rw [List.filterMap_cons, List.filter_cons]
    dsimp only
    rw [show List.filterMap _ ps = entrySteps e ps from rfl, ih]
    by_cases h : (0 : Int) ≤ p - 1 ∧ p - 1 < (e.pageCount : Int)
    · rw [if_pos h, if_pos (by simp only [Bool.and_eq_true, decide_eq_true_eq]; omega)]
      rw [List.map_cons]
    · rw [if_neg h, if_neg (by simp only [Bool.and_eq_true, decide_eq_true_eq]; omega)]

theorem mergeStep_skip (sel : String → Option (List Int)) (bk : Bool)
    (plan : MergePlan) (e : SourceEntry)
    (h : e.readable = false ∨ e.pageCount < 1 ∨ wantedOf sel e = []) :
    mergeStep sel bk plan e = plan := by
  unfold mergeStep
  by_cases h1 : e.readable
  · rw [if_neg (by simp [h1])]
    by_cases h2 : e.pageCount < 1
    · rw [if_pos h2]
    · rw [if_neg h2]
      have hw : wantedOf sel e = [] := by
        rcases h with h | h | h
        · rw [h1] at h; cases h
        · exact absurd h h2
        · exact h
      rw [hw]
      dsimp only
      rw [if_neg (by simp)]
      show { steps := plan.steps ++ entrySteps e [], bookmarks := plan.bookmarks } = plan
      rw [show entrySteps e [] = [] from rfl, List.append_nil]
  · rw [if_pos (by simp [Bool.not_eq_true] at h1 ⊢; exact h1)]

/-- Claim C8: the assembler never fails on page-selection content — each
selected page whose 0-based index falls outside `[0, pageCount)` is silently
dropped (the emitted steps are exactly the in-range selections, in order),
and an unreadable entry, a zero-page entry, or an empty selection contributes
nothing while the other entries merge exactly as without it. -/
theorem claim_C8_silent_skips :
    (∀ (e : SourceEntry) (w : List Int),
      entrySteps e w =
        (w.filter (fun p => decide (1 ≤ p) &&
          decide (p ≤ (e.pageCount : Int)))).map (fun p => (e.name, p - 1))) ∧
    (∀ (sel : String → Option (List Int)) (bk : Bool)
      (pre post : List SourceEntry) (e : SourceEntry),
      e.readable = false ∨ e.pageCount < 1 ∨ wantedOf sel e = [] →
      buildMergePlan (pre ++ e :: post) sel bk =
        buildMergePlan (pre ++ post) sel bk) := by
  refine ⟨entrySteps_filter_eq, ?_⟩
  intro sel bk pre post e h
  unfold buildMergePlan
  rw [List.foldl_append, List.foldl_append, List.foldl_cons,
    mergeStep_skip sel bk _ e h]

/-- Witness for C8: an entry selecting the stale pages `[2, 9, 0]` of a
3-page source emits only page 2, and a zero-page entry between two entries
changes nothing. -/
theorem claim_C8_witness :
    entrySteps ⟨"A", true, 3⟩ [2, 9, 0] =
      ([2].map (fun p => ("A", p - 1))) ∧
    buildMergePlan [⟨"A", true, 3⟩, ⟨"Z", true, 0⟩, ⟨"B", true, 1⟩]
        (fun _ => some [1]) true =
      buildMergePlan [⟨"A", true, 3⟩, ⟨"B", true, 1⟩] (fun _ => some [1]) true := by
  constructor
  · exact (claim_C8_silent_skips.1 ⟨"A", true, 3⟩ [2, 9, 0]).trans (by decide)
  · exact claim_C8_silent_skips.2 (fun _ => some [1]) true
      [⟨"A", true, 3⟩] [⟨"B", true, 1⟩] ⟨"Z", true, 0⟩ (by decide)

end PdfTool
namespace PdfTool

theorem entrySteps_intRange (e : SourceEntry) :
    ∀ n, n ≤ e.pageCount →
      entrySteps e (intRange 1 (n : Int)) =
        (List.range n).map (fun (i : Nat) => (e.name, (i : Int))) := by
  intro n
  induction n with
  | zero =>
    intro _
    rfl
  | succ n ih =>
    intro hn
    rw [show (((n + 1 : Nat)) : Int) = (n : Int) + 1 by push_cast; ring]
    rw [intRange_one_succ n]
    unfold entrySteps
    rw [List.filterMap_append]
    rw [show List.filterMap _ (intRange 1 (n : Int)) = entrySteps e (intRange 1 (n : Int)) from rfl]
    rw [ih (by omega)]
    rw [List.range_succ, List.map_append]
    refine congrArg (fun x => _ ++ x) ?_
    rw [List.filterMap_cons]
    dsimp only
    rw [if_pos (by constructor <;> omega)]
    refine congrArg (fun x => [(e.name, x)]) (by omega)

/-- Claim C10: an entry whose identifier is absent from the selections
mapping is not skipped at merge time — its wanted list defaults to all pages
`[1..pageCount]`, and every readable page of the source is appended in
ascending order. -/
theorem claim_C10_default_selection (es : List SourceEntry) (e : SourceEntry)
    (sel : String → Option (List Int)) (bk : Bool)
    (hsel : sel e.name = none) (hr : e.readable = true) :
    wantedOf sel e = intRange 1 ((e.pageCount : Nat) : Int) ∧
    (buildMergePlan (es ++ [e]) sel bk).steps =
      (buildMergePlan es sel bk).steps ++
        (List.range e.pageCount).map (fun (i : Nat) => (e.name, (i : Int))) := by
  have hw : wantedOf sel e = intRange 1 ((e.pageCount : Nat) : Int) := by
    unfold wantedOf
    rw [hsel, Option.getD_none]
  refine ⟨hw, ?_⟩
  unfold buildMergePlan
  rw [List.foldl_append, List.foldl_cons, List.foldl_nil]
  by_cases h0 : e.pageCount < 1
  · rw [mergeStep_skip sel bk _ e (Or.inr (Or.inl h0))]
    have : e.pageCount = 0 := by omega
    rw [this]
    simp
  · unfold mergeStep
    rw [if_neg (by simp [hr]), if_neg h0, hw]
    dsimp only
    rw [entrySteps_intRange e e.pageCount (Nat.le_refl _)]
    by_cases hb : (bk && !(intRange 1 ((e.pageCount : Nat) : Int)).isEmpty) = true
    · rw [if_pos hb]
    · rw [if_neg hb]

/-- Witness for C10: a 3-page readable source absent from the selections
contributes pages 0,1,2 in order after the existing entries. -/
theorem claim_C10_witness :
    wantedOf (fun _ => none) ⟨"dir/x.pdf", true, 3⟩ =
      intRange 1 (((3 : Nat) : Nat) : Int) ∧
    (buildMergePlan [⟨"dir/x.pdf", true, 3⟩] (fun _ => none) true).steps =
      (buildMergePlan [] (fun _ => none) true).steps ++
        (List.range 3).map (fun (i : Nat) => ("dir/x.pdf", (i : Int))) :=
  claim_C10_default_selection [] ⟨"dir/x.pdf", true, 3⟩ (fun _ => none) true
    rfl rfl

end PdfTool
namespace PdfTool

theorem insortEntry_perm {α : Type} (key : α → String) (x : α) :
    ∀ l : List α, List.Perm (insortEntry key x l) (x :: l) := by
  intro l
  induction l with
  | nil => exact List.Perm.refl _
  | cons b l ih =>
    unfold insortEntry
    by_cases h : key x ≤ key b
    · rw [if_pos h]
    · rw [if_neg h]
      exact (List.Perm.cons b ih).trans (List.Perm.swap x b l)

theorem sortEntries_perm {α : Type} (key : α → String) :
    ∀ l : List α, List.Perm (sortEntries key l) l := by
  intro l
  induction l with
  | nil => exact List.Perm.refl _
  | cons x l ih =>
    unfold sortEntries
    exact (insortEntry_perm key x (sortEntries key l)).trans (List.Perm.cons x ih)

theorem mem_insortEntry {α : Type} (key : α → String) (x : α) (l : List α) (a : α) :
    a ∈ insortEntry key x l ↔ a = x ∨ a ∈ l := by
  rw [(insortEntry_perm key x l).mem_iff]
  simp

theorem insortEntry_pairwise {α : Type} (key : α → String) (x : α) :
    ∀ l : List α, List.Pairwise (fun a b => key a ≤ key b) l →
      List.Pairwise (fun a b => key a ≤ key b) (insortEntry key x l) := by
  intro l
  induction l with
  | nil => intro _; simp [insortEntry]
  | cons b l ih =>
    intro hp
    obtain ⟨hb, hl⟩ := List.pairwise_cons.mp hp
    unfold insortEntry
    by_cases h : key x ≤ key b
    · rw [if_pos h]
      refine List.pairwise_cons.mpr ⟨?_, hp⟩
      intro a ha
      rcases List.mem_cons.mp ha with rfl | ha
      · exact h
      · exact le_trans h (hb a ha)
    · rw [if_neg h]
      refine List.pairwise_cons.mpr ⟨?_, ih hl⟩
      intro a ha
      rcases (mem_insortEntry key x l a).mp ha with rfl | ha
      · exact le_of_not_le h
      · exact hb a ha

theorem sortEntries_pairwise {α : Type} (key : α → String) :
    ∀ l : List α, List.Pairwise (fun a b => key a ≤ key b) (sortEntries key l) := by
  intro l
  induction l with
  | nil => simp [sortEntries]
  | cons x l ih =>
    unfold sortEntries
    exact insortEntry_pairwise key x (sortEntries key l) ih

theorem insortEntry_filter_key {α : Type} (key : α → String) (x : α) (k : String) :
    ∀ l : List α,
      (insortEntry key x l).filter (fun a => decide (key a = k)) =
        (x :: l).filter (fun a => decide (key a = k)) := by
  intro l
  induction l with
  | nil => rfl
  | cons b l ih =>
    unfold insortEntry
    by_cases h : key x ≤ key b
    · rw [if_pos h]
    · rw [if_neg h]
      have hlt : key b < key x := lt_of_not_le h
      by_cases hx : key x = k
      · have hbk : ¬(key b = k) := fun hbk => absurd (hbk.trans hx.symm) (ne_of_lt hlt)
        rw [List.filter_cons, List.filter_cons, List.filter_cons]
        simp only [hx, hbk, decide_eq_true_eq, if_pos, if_neg, decide_True]
        rw [ih, List.filter_cons]
        simp [hx, hbk]
      · rw [List.filter_cons, List.filter_cons]
        by_cases hbk : key b = k
        · simp only [hbk, decide_True, if_pos]
          rw [ih, List.filter_cons]
          simp only [hx, decide_eq_true_eq, if_neg]
          rw [List.filter_cons]
          simp [hbk]
        · simp only [hbk, hx, decide_eq_true_eq, if_neg]
          rw [ih, List.filter_cons]
          simp only [hx, decide_eq_true_eq, if_neg]
          rw [List.filter_cons]
          simp [hbk]

theorem sortEntries_filter_key {α : Type} (key : α → String) (k : String) :
    ∀ l : List α,
      (sortEntries key l).filter (fun a => decide (key a = k)) =
        l.filter (fun a => decide (key a = k)) := by
  intro l
  induction l with
  | nil => rfl
  | cons x l ih =>
    unfold sortEntries
    rw [insortEntry_filter_key key x k (sortEntries key l), List.filter_cons,
      List.filter_cons, ih]

end PdfTool
namespace PdfTool

/-- Claim C6: under the alphabetical policy the entries are reordered into
an order sorted by the case-insensitive basename key `mergeKey`, as a
permutation of the input in which entries with equal keys keep their
original relative order (stable sort); the reordering moves entries whole,
so each entry's own selection (`wantedOf`) travels with it untouched; under
the default policy the given order is kept. -/
theorem claim_C6_alphabetical_policy (l : List SourceEntry) :
    orderEntries false l = l ∧
    List.Perm (orderEntries true l) l ∧
    List.Pairwise (fun a b => mergeKey a.name ≤ mergeKey b.name)
      (orderEntries true l) ∧
    (∀ k : String,
      (orderEntries true l).filter (fun e => decide (mergeKey e.name = k)) =
        l.filter (fun e => decide (mergeKey e.name = k))) ∧
    ∀ sel : String → Option (List Int),
      List.Perm ((orderEntries true l).map (fun e => (e.name, wantedOf sel e)))
        (l.map (fun e => (e.name, wantedOf sel e))) := by
  refine ⟨rfl, ?_, ?_, ?_, ?_⟩
  · exact sortEntries_perm (fun e => mergeKey e.name) l
  · exact sortEntries_pairwise (fun e => mergeKey e.name) l
  · exact fun k => sortEntries_filter_key (fun e => mergeKey e.name) k l
  · intro sel
    have ho : orderEntries true l = sortEntries (fun e => mergeKey e.name) l := rfl
    rw [ho]
    exact List.Perm.map _ (sortEntries_perm (fun e => mergeKey e.name) l)

end PdfTool
